import Mathlib

/-
  Verification of the retail-store inventory-management MDP notebook
  (`apps/retail_store.ipynb`).

  The notebook works with Python ints and floats; the embedding uses ℤ for
  states / actions / demands and ℚ for all real-valued quantities (costs,
  probabilities, rewards, value functions), so every definition is
  executable and every concrete run can be checked by evaluation.
  Randomness (Python's `rd.random()` / `np.random`) is modelled by explicit
  streams of draws passed as parameters.
-/

namespace RetailStore

/-- `nextstate(s,a,d,M)` from the notebook: `max(0, min(M, s+a) - d)`. -/
def nextstate (s a d M : ℤ) : ℤ := max 0 (min M (s + a) - d)

/-- `nextreward(s,a,d,M,c,c0,h,p)` from the notebook:
`rew = -c*a - h*s + p*min(M,d,s+a)`, minus `c0` when `a > 0`. -/
def nextreward (s a d M : ℤ) (c c0 h p : ℚ) : ℚ :=
  let rew : ℚ := -c * (a : ℚ) - h * (s : ℚ) + p * ((min M (min d (s + a)) : ℤ) : ℚ)
  if 0 < a then rew - c0 else rew

/-- The demand pmf from the notebook: `pdem = [q*(1-q)**m for m in range(M+1)]`
followed by `pdem[M] = pdem[M] + 1 - sum(pdem)`. -/
def pdemList (M : ℕ) (q : ℚ) : List ℚ :=
  let base := (List.range (M + 1)).map (fun m => q * (1 - q) ^ m)
  base.set M (base.getD M 0 + 1 - base.sum)

/-- Scan of the cumulative sums of `pdem`, mirroring the `while (u > cpdem[i])`
loop of `SimuDemand`; `acc` is the mass strictly before the current entry and
`none` models the Python `IndexError` raised when `i` runs past the array. -/
def simuDemandAux (u : ℚ) (acc : ℚ) : List ℚ → Option ℕ
  | [] => none
  | x :: xs => if u ≤ acc + x then some 0 else (simuDemandAux u (acc + x) xs).map (· + 1)

/-- `SimuDemand(pdem)` from the notebook, with the uniform draw `u = rd.random()`
made explicit: returns the first index `i` with `u ≤ cpdem[i]`. -/
def SimuDemand (u : ℚ) (pdem : List ℚ) : Option ℕ := simuDemandAux u 0 pdem

/-- The mutable fields of the `StoreManagement` gym environment:
`self.state` (current stock) and `self.curr_step`. -/
structure StoreEnv where
  state : ℤ
  curr_step : ℤ
  deriving DecidableEq

/-- `StoreManagement.__init__(FirstState)`: `curr_step = -1`, `state = FirstState`. -/
def StoreManagement.init (FirstState : ℤ) : StoreEnv :=
  { state := FirstState, curr_step := -1 }

/-- `StoreManagement.step(action)`: increments `curr_step`, draws a demand via
`SimuDemand` (uniform draw `u` explicit), computes the reward and the next
state, stores the next state, and returns `(next_state, reward, False, {})`
together with the updated environment.  `none` models the crash of a failed
demand draw. -/
def StoreEnv.step (M : ℤ) (c c0 h p : ℚ) (pdem : List ℚ) (env : StoreEnv)
    (action : ℤ) (u : ℚ) : Option (ℤ × ℚ × Bool × StoreEnv) :=
  (SimuDemand u pdem).map fun (d : ℕ) =>
    let reward := nextreward env.state action (d : ℤ) M c c0 h p
    let ns := nextstate env.state action (d : ℤ) M
    (ns, reward, false, { state := ns, curr_step := env.curr_step + 1 })

/-- `StoreManagement.reset(InitialStock)`: sets `curr_step = -1` and
`state = InitialStock`; the Python method returns `None`. -/
def StoreEnv.reset (_env : StoreEnv) (InitialStock : ℤ) : StoreEnv :=
  { state := InitialStock, curr_step := -1 }

/-- The transition tensor built by the kernel cell:
`K[s,ns,a] += pdem[d]` for every demand `d` with `nextstate(s,a,d) = ns`
(summing over `d` instead of imperatively accumulating). -/
def K (M : ℕ) (pdem : List ℚ) (s ns a : ℕ) : ℚ :=
  ∑ d ∈ Finset.range (M + 1),
    if nextstate s a d M = (ns : ℤ) then pdem.getD d 0 else 0

/-- The average-reward table built by the kernel cell:
`avgR[s,a] += pdem[d] * reward(s,a,d)` summed over all demands `d`. -/
def avgR (M : ℕ) (c c0 h p : ℚ) (pdem : List ℚ) (s a : ℕ) : ℚ :=
  ∑ d ∈ Finset.range (M + 1), pdem.getD d 0 * nextreward s a d M c c0 h p

/-- `np.argmax(f[0..n])`: index of the first occurrence of the maximum of
`f 0, ..., f n` (ties keep the lower index, as `np.argmax` does). -/
def npArgmax (f : ℕ → ℚ) : ℕ → ℕ
  | 0 => 0
  | n + 1 =>
    let b := npArgmax f n
    if f b < f (n + 1) then n + 1 else b

/-- `max(f[0..n])`: the running maximum of `f 0, ..., f n`. -/
def npMax (f : ℕ → ℚ) : ℕ → ℚ
  | 0 => f 0
  | n + 1 => max (npMax f n) (f (n + 1))

/-- The Q table computed inside `Improve`:
`Q[s,a] = avgR[s,a] + gamma * sum over ns of K[s,ns,a] * V[ns]`. -/
def Qtable (M : ℕ) (gamma c c0 h p : ℚ) (pdem : List ℚ) (V : ℕ → ℚ)
    (s a : ℕ) : ℚ :=
  avgR M c c0 h p pdem s a +
    gamma * ∑ ns ∈ Finset.range (M + 1), K M pdem s ns a * V ns

/-- `Improve(V)` from the notebook: the greedy policy
`Pi[s] = np.argmax(Q[s,:])` and the values `newV[s] = Q[s, Pi[s]]`. -/
def Improve (M : ℕ) (gamma c c0 h p : ℚ) (pdem : List ℚ) (V : ℕ → ℚ) :
    (ℕ → ℕ) × (ℕ → ℚ) :=
  (fun s => npArgmax (fun a => Qtable M gamma c c0 h p pdem V s a) M,
   fun s => Qtable M gamma c c0 h p pdem V s
      (npArgmax (fun a => Qtable M gamma c c0 h p pdem V s a) M))

/-- The loop body of `SimulateTrajectory`, recursing over the remaining
iterations: at time `t` it records `States[t] = env.state`, plays
`Pi(env.state)`, and records `Rewards[t]`.  `us` is the stream of uniform
draws consumed by the demand sampler. -/
def simTrajLoop (M : ℤ) (c c0 h p : ℚ) (pdem : List ℚ) (us : ℕ → ℚ)
    (Pi : ℤ → ℤ) : ℕ → ℕ → List ℚ → List ℚ → StoreEnv → Option (List ℚ × List ℚ)
  | _, 0, States, Rewards, _ => some (States, Rewards)
  | t, rem + 1, States, Rewards, env =>
    let States1 := States.set t (env.state : ℚ)
    match env.step M c c0 h p pdem (Pi env.state) (us t) with
    | none => none
    | some (_, rew, _, env1) =>
      simTrajLoop M c c0 h p pdem us Pi (t + 1) rem States1 (Rewards.set t rew) env1

/-- `SimulateTrajectory(T, Pi, s1)` from the notebook: zero-initialised arrays
`States` and `Rewards` of length `T+1`, a fresh environment started at `s1`,
and `T` iterations of the interaction loop. -/
def SimulateTrajectory (M : ℤ) (c c0 h p : ℚ) (pdem : List ℚ) (us : ℕ → ℚ)
    (T : ℕ) (Pi : ℤ → ℤ) (s1 : ℤ) : Option (List ℚ × List ℚ) :=
  simTrajLoop M c c0 h p pdem us Pi 0 T
    (List.replicate (T + 1) 0) (List.replicate (T + 1) 0)
    (StoreManagement.init s1)

/-- Pointwise update of a two-argument table, modelling `A[i,j] = v` on a
numpy array viewed as a function. -/
def fupd2 (f : ℤ → ℤ → ℚ) (i j : ℤ) (v : ℚ) : ℤ → ℤ → ℚ :=
  fun x y => if x = i ∧ y = j then v else f x y

/-- The state threaded through the `QLearning` loop: the `Q` and `N` tables,
the environment, and the position `t` in the random streams (one triple of
draws is consumed per loop iteration). -/
structure QLState where
  Q : ℤ → ℤ → ℚ
  N : ℤ → ℤ → ℚ
  env : StoreEnv
  t : ℕ

/-- All fixed inputs of the `QLearning` cell: the MDP parameters, the
exploration rate `epsilon = 0.3`, the random streams (`randA` for
`np.random.randint(M+1)`, `randE` for the `rd.random()` of the
epsilon-greedy test, `randU` for the uniform draw inside the demand
sampler), and `invSqrtP`, the map `x` to `1/x**0.5` used for the step size
`alpha = 1/(1+N[S,A])**0.5`.  The square root is irrational, so this one
floating-point operation is abstracted as a rational-valued parameter; no
claim settled here depends on its values. -/
structure QLParams where
  M : ℕ
  gamma : ℚ
  c : ℚ
  c0 : ℚ
  h : ℚ
  p : ℚ
  pdem : List ℚ
  randA : ℕ → ℕ
  randE : ℕ → ℚ
  randU : ℕ → ℚ
  invSqrtP : ℚ → ℚ

/-- One iteration of the inner `QLearning` loop: epsilon-greedy action choice,
visit-count increment, one environment step, and the Q-update
`Q[S,A] += alpha * (rew + gamma*max(Q[nS,:]) - Q[S,A])`. -/
def qlIter (P : QLParams) (st : QLState) : Option QLState :=
  let S := st.env.state
  let A : ℤ :=
    if (3 / 10 : ℚ) < P.randE st.t then (npArgmax (fun a => st.Q S a) P.M : ℤ)
    else (P.randA st.t : ℤ)
  let N1 := fupd2 st.N S A (st.N S A + 1)
  match st.env.step P.M P.c P.c0 P.h P.p P.pdem A (P.randU st.t) with
  | none => none
  | some (nS, rew, _, env1) =>
    let delta := rew + P.gamma * npMax (fun a => st.Q nS a) P.M - st.Q S A
    let alpha := P.invSqrtP (1 + N1 S A)
    some { Q := fupd2 st.Q S A (st.Q S A + alpha * delta),
           N := N1, env := env1, t := st.t + 1 }

/-- `n` successive iterations of the inner `QLearning` loop. -/
def qlRun (P : QLParams) : ℕ → QLState → Option QLState
  | 0, st => some st
  | n + 1, st =>
    match qlIter P st with
    | none => none
    | some st1 => qlRun P n st1

/-- The greedy policy extracted from a Q table:
`Pi = [np.argmax(Q[s,:]) for s in range(M+1)]`. -/
def greedyPolicy (M : ℕ) (Q : ℤ → ℤ → ℚ) : ℕ → ℕ :=
  fun s => npArgmax (fun a => Q s a) M

/-- The outer `QLearning` loop over consecutive landmark pairs `(lo, hi)`:
each segment runs the inner loop `for t in range(lo+1, hi)` — that is,
`hi - (lo+1)` iterations — then reports `(hi, curr_step, greedy policy)`,
mirroring the `print` of the notebook (with the environment's step counter
recorded as the measure of executed updates). -/
def qlSegs (P : QLParams) :
    List (ℕ × ℕ) → QLState → Option (List (ℕ × ℤ × (ℕ → ℕ)) × QLState)
  | [], st => some ([], st)
  | (lo, hi) :: rest, st =>
    (qlRun P (hi - (lo + 1)) st).bind fun st1 =>
      (qlSegs P rest st1).map fun rsf =>
        ((hi, st1.env.curr_step, greedyPolicy P.M st1.Q) :: rsf.1, rsf.2)

/-- `QLearning(Landmarks)` from the notebook: a fresh `Q` table (`Q0`
abstracts the random initialisation `10*np.random.rand`), zero visit counts,
a fresh environment at `s0 = np.random.randint(M+1)`, and the loop
`for k in range(nbLands-1)` over consecutive landmarks; returns the list of
reported checkpoints and the final state. -/
def QLearning (P : QLParams) (Q0 : ℤ → ℤ → ℚ) (s0 : ℤ) (Landmarks : List ℕ) :
    Option (List (ℕ × ℤ × (ℕ → ℕ)) × QLState) :=
  qlSegs P (Landmarks.zip Landmarks.tail)
    { Q := Q0, N := fun _ _ => 0, env := StoreManagement.init s0, t := 0 }

/-- The checkpoint/step-count bookkeeping of the `QLearning` loop: starting
from step counter `cs`, each landmark pair `(lo, hi)` contributes a report
`(hi, cs + (hi - (lo+1)))`, since `range(lo+1, hi)` has `hi - lo - 1`
iterations. -/
def reportSpec : List (ℕ × ℕ) → ℤ → List (ℕ × ℤ)
  | [], _ => []
  | (lo, hi) :: rest, cs =>
    (hi, cs + ((hi - (lo + 1) : ℕ) : ℤ)) :: reportSpec rest (cs + ((hi - (lo + 1) : ℕ) : ℤ))

/-! ## Theorems -/

/-- C1: for every stock `s ∈ [0,M]` and action `a`, a `step(a)` call that
observes sampled demand `d` returns the 4-tuple `(next_stock, reward, False, {})`
with `reward = -c*a - h*s + p*min(M,d,s+a)` minus an additional `c0` exactly
when `a > 0`, and `next_stock = max(0, min(M,s+a) - d)`; the stored state
becomes `next_stock`, the step counter advances, and the done flag is
always `False`. -/
theorem step_spec (M : ℤ) (c c0 h p : ℚ) (pdem : List ℚ) (env : StoreEnv)
    (a : ℤ) (u : ℚ) (d : ℕ)
    (_hs0 : 0 ≤ env.state) (_hsM : env.state ≤ M)
    (hd : SimuDemand u pdem = some d) :
    env.step M c c0 h p pdem a u =
      some (max 0 (min M (env.state + a) - (d : ℤ)),
            (-c * (a : ℚ) - h * (env.state : ℚ) +
              p * ((min M (min (d : ℤ) (env.state + a)) : ℤ) : ℚ)) -
              (if 0 < a then c0 else 0),
            false,
            { state := max 0 (min M (env.state + a) - (d : ℤ)),
              curr_step := env.curr_step + 1 }) := by
  unfold StoreEnv.step
  rw [hd]
  simp only [Option.map_some', Option.some.injEq, nextstate, nextreward]
  split_ifs <;> simp

/-- Witness for C1 at `M = 2`, stock `1`, action `1`, uniform draw `0` on the
pmf `[1, 0]` (demand `0` observed). -/
theorem step_spec_witness :
    StoreEnv.step 2 (1/2) (3/10) (3/10) 1 [1, 0] { state := 1, curr_step := -1 } 1 0 =
      some (max 0 (min 2 (1 + 1) - ((0 : ℕ) : ℤ)),
            (-(1/2) * ((1 : ℤ) : ℚ) - (3/10) * ((1 : ℤ) : ℚ) +
              1 * ((min 2 (min ((0 : ℕ) : ℤ) (1 + 1)) : ℤ) : ℚ)) -
              (if (0 : ℤ) < 1 then (3/10 : ℚ) else 0),
            false,
            { state := max 0 (min 2 (1 + 1) - ((0 : ℕ) : ℤ)), curr_step := -1 + 1 }) :=
  step_spec 2 (1/2) (3/10) (3/10) 1 [1, 0] { state := 1, curr_step := -1 } 1 0 0
    (by decide) (by decide) (by simp [SimuDemand, simuDemandAux])

/-- C6: for every stock `s ∈ [0,M]`, every integer action `a` (also outside
`[0,M]`) and every demand `d ∈ [0,M]`, the next state
`max(0, min(M,s+a) - d)` computed by `nextstate` lies in `[0,M]`
(out-of-range actions are clipped silently); consequently the environment's
stored stock stays in `[0,M]` after every successful `step` call. -/
theorem nextstate_in_range (M : ℕ) :
    (∀ s a d : ℤ, 0 ≤ s → s ≤ M → 0 ≤ d → d ≤ M →
       0 ≤ nextstate s a d M ∧ nextstate s a d M ≤ M) ∧
    (∀ (c c0 h p : ℚ) (pdem : List ℚ) (env : StoreEnv) (a : ℤ) (u : ℚ)
       (ns : ℤ) (rew : ℚ) (dn : Bool) (env1 : StoreEnv),
       env.step M c c0 h p pdem a u = some (ns, rew, dn, env1) →
       0 ≤ env.state → env.state ≤ M →
       0 ≤ env1.state ∧ env1.state ≤ M) := by
  constructor
  · intro s a d hs0 hsM hd0 hdM
    unfold nextstate
    omega
  · intro c c0 h p pdem env a u ns rew dn env1 hstep hs0 hsM
    unfold StoreEnv.step at hstep
    cases hSD : SimuDemand u pdem with
    | none => rw [hSD] at hstep; simp at hstep
    | some d =>
      rw [hSD] at hstep
      simp only [Option.map_some', Option.some.injEq, Prod.mk.injEq] at hstep
      obtain ⟨h1, h2, h3, h4⟩ := hstep
      subst h4
      dsimp only
      unfold nextstate
      omega

/-- Witness for C6 at `M = 2`, `s = 1`, `a = 5` (out of range), `d = 1`,
together with a concrete successful `step` call (demand `0`, reward `0`). -/
theorem nextstate_in_range_witness :
    (0 ≤ nextstate 1 5 1 2 ∧ nextstate 1 5 1 2 ≤ 2) ∧
    (0 ≤ ({ state := 2, curr_step := 0 } : StoreEnv).state ∧
      ({ state := 2, curr_step := 0 } : StoreEnv).state ≤ 2) :=
  ⟨(nextstate_in_range 2).1 1 5 1 (by decide) (by decide) (by decide) (by decide),
   (nextstate_in_range 2).2 0 0 0 0 [1, 0]
     { state := 1, curr_step := -1 } 5 0 2 0
     false { state := 2, curr_step := 0 }
     (by simp [StoreEnv.step, SimuDemand, simuDemandAux, nextstate, nextreward])
     (by decide) (by decide)⟩

/-- Sum of a list after overwriting the entry at an index inside the list. -/
theorem sum_set_of_lt (l : List ℚ) (i : ℕ) (v : ℚ) (hi : i < l.length) :
    (l.set i v).sum = l.sum - l.getD i 0 + v := by
  induction l generalizing i with
  | nil => simp at hi
  | cons x xs ih =>
    cases i with
    | zero => simp [List.set]; ring
    | succ n =>
      have hn : n < xs.length := by simpa using hi
      simp only [List.set, List.sum_cons, List.getD_cons_succ, ih n hn]
      ring

/-- Closed form for the partial sums of the geometric demand weights. -/
theorem geom_weights_sum (q : ℚ) (n : ℕ) :
    ((List.range n).map (fun m => q * (1 - q) ^ m)).sum = 1 - (1 - q) ^ n := by
  induction n with
  | zero => simp
  | succ n ih =>
    rw [List.range_succ, List.map_append, List.sum_append]
    simp only [List.map_cons, List.map_nil, List.sum_cons, List.sum_nil, ih, pow_succ]
    ring

/-- The `m`-th geometric base weight, for `m` within the array. -/
theorem pdem_base_getD (M : ℕ) (q : ℚ) (m : ℕ) (hm : m < M + 1) :
    ((List.range (M + 1)).map (fun m => q * (1 - q) ^ m)).getD m 0 = q * (1 - q) ^ m := by
  rw [List.getD_eq_getElem _ _ (by simpa using hm)]
  simp

/-- The overwritten last entry of the demand pmf equals `(1-q)^M`. -/
theorem pdemList_getD_last (M : ℕ) (q : ℚ) :
    (pdemList M q).getD M 0 = (1 - q) ^ M := by
  unfold pdemList
  rw [List.getD_eq_getElem _ _ (by simp)]
  rw [List.getElem_set_self (by simp)]
  rw [pdem_base_getD M q M (Nat.lt_succ_self M)]
  have hg := geom_weights_sum q (M + 1)
  rw [hg, pow_succ]
  ring

/-- C3: for every `M ≥ 0` and `q ∈ (0,1)`, the demand pmf array has length
`M+1`, entry `m` equals `q*(1-q)^m` for `m < M`, the last entry absorbs the
remaining mass so the array sums exactly to `1`, and every entry is
non-negative. -/
theorem pdem_pmf_spec (M : ℕ) (q : ℚ) (hq0 : 0 < q) (hq1 : q < 1) :
    (pdemList M q).length = M + 1 ∧
    (∀ m, m < M → (pdemList M q).getD m 0 = q * (1 - q) ^ m) ∧
    (pdemList M q).sum = 1 ∧
    (∀ m, m < M + 1 → 0 ≤ (pdemList M q).getD m 0) := by
  have hbaselen : ((List.range (M + 1)).map (fun m => q * (1 - q) ^ m)).length = M + 1 := by
    simp
  have hlen : (pdemList M q).length = M + 1 := by
    unfold pdemList; simp
  have hmid : ∀ m, m < M → (pdemList M q).getD m 0 = q * (1 - q) ^ m := by
    intro m hm
    unfold pdemList
    rw [List.getD_eq_getElem _ _ (by simp; omega)]
    rw [List.getElem_set_of_ne (by omega)]
    rw [← List.getD_eq_getElem _ 0 (by simp; omega)]
    exact pdem_base_getD M q m (by omega)
  have h1q : (0 : ℚ) ≤ 1 - q := by linarith
  refine ⟨hlen, hmid, ?_, ?_⟩
  · unfold pdemList
    rw [sum_set_of_lt _ _ _ (by simp)]
    ring
  · intro m hm
    rcases Nat.lt_or_ge m M with h | h
    · rw [hmid m h]
      positivity
    · have hmM : m = M := by omega
      rw [hmM, pdemList_getD_last]
      positivity

/-- Witness for C3 at `M = 2`, `q = 1/2`. -/
theorem pdem_pmf_spec_witness :
    (pdemList 2 (1/2)).length = 2 + 1 ∧
    (∀ m, m < 2 → (pdemList 2 (1/2)).getD m 0 = (1/2) * (1 - 1/2) ^ m) ∧
    (pdemList 2 (1/2)).sum = 1 ∧
    (∀ m, m < 2 + 1 → 0 ≤ (pdemList 2 (1/2)).getD m 0) :=
  pdem_pmf_spec 2 (1/2) one_half_pos one_half_lt_one

/-- Summing `l.getD` over `range l.length` recovers `l.sum`. -/
theorem sum_range_getD (l : List ℚ) :
    ∑ d ∈ Finset.range l.length, l.getD d 0 = l.sum := by
  induction l with
  | nil => simp
  | cons x xs ih =>
    rw [List.length_cons, Finset.sum_range_succ']
    simp only [List.getD_cons_succ, List.getD_cons_zero, List.sum_cons, ih]
    ring

/-- Row sums of the transition tensor: helper valid for all `s, a`. -/
theorem K_row_sum (M : ℕ) (pdem : List ℚ)
    (hlen : pdem.length = M + 1) (hsum : pdem.sum = 1)
    (s a : ℕ) :
    ∑ ns ∈ Finset.range (M + 1), K M pdem s ns a = 1 := by
  unfold K
  rw [Finset.sum_comm]
  have hpoint : ∀ d ∈ Finset.range (M + 1),
      (∑ ns ∈ Finset.range (M + 1),
        if nextstate s a d M = (ns : ℤ) then pdem.getD d 0 else 0) = pdem.getD d 0 := by
    intro d hd
    have h0 : 0 ≤ nextstate s a d M := le_max_left _ _
    have htM : (nextstate s a d M).toNat ≤ M := by
      unfold nextstate
      omega
    have hiff : ∀ ns : ℕ, (nextstate s a d M = (ns : ℤ)) ↔ ns = (nextstate s a d M).toNat := by
      intro ns
      omega
    calc (∑ ns ∈ Finset.range (M + 1),
            if nextstate s a d M = (ns : ℤ) then pdem.getD d 0 else 0)
        = ∑ ns ∈ Finset.range (M + 1),
            if ns = (nextstate s a d M).toNat then pdem.getD d 0 else 0 := by
          refine Finset.sum_congr rfl fun ns _ => ?_
          simp only [hiff ns]
      _ = pdem.getD d 0 := by
          rw [Finset.sum_ite_eq' (Finset.range (M + 1)) _ (fun _ => pdem.getD d 0)]
          simp [Nat.lt_succ_of_le htM]
  rw [Finset.sum_congr rfl hpoint, ← hlen, sum_range_getD, hsum]

/-- C2: after the kernel builder finishes, for every state `s ∈ [0,M]` and
action `a ∈ [0,M]`, the row `K[s,·,a]` of the transition tensor sums to
exactly `1`, provided the demand pmf sums to `1`. -/
theorem kernel_row_sums_one (M : ℕ) (pdem : List ℚ)
    (hlen : pdem.length = M + 1) (hsum : pdem.sum = 1)
    (s a : ℕ) (_hs : s ≤ M) (_ha : a ≤ M) :
    ∑ ns ∈ Finset.range (M + 1), K M pdem s ns a = 1 :=
  K_row_sum M pdem hlen hsum s a

/-- Witness for C2 at `M = 1`, `pdem = [1, 0]`, `s = 1`, `a = 1`. -/
theorem kernel_row_sums_one_witness :
    ∑ ns ∈ Finset.range (1 + 1), K 1 [1, 0] 1 ns 1 = 1 :=
  kernel_row_sums_one 1 [1, 0] rfl (by simp) 1 1 (by decide) (by decide)

/-- `np.argmax` over `{0..n}` returns an index in `{0..n}`. -/
theorem npArgmax_le (f : ℕ → ℚ) (n : ℕ) : npArgmax f n ≤ n := by
  induction n with
  | zero => simp [npArgmax]
  | succ n ih =>
    simp only [npArgmax]
    split_ifs
    · omega
    · omega

/-- `np.argmax` over `{0..n}` attains the maximum of `f` there. -/
theorem le_npArgmax (f : ℕ → ℚ) (n : ℕ) : ∀ j ≤ n, f j ≤ f (npArgmax f n) := by
  induction n with
  | zero =>
    intro j hj
    interval_cases j
    simp [npArgmax]
  | succ n ih =>
    intro j hj
    simp only [npArgmax]
    split_ifs with hlt
    · rcases Nat.lt_succ_iff_lt_or_eq.mp (Nat.lt_succ_of_le hj) with hj' | hj'
      · exact le_of_lt (lt_of_le_of_lt (ih j (Nat.lt_succ_iff.mp hj')) hlt)
      · rw [hj']
    · rcases Nat.lt_succ_iff_lt_or_eq.mp (Nat.lt_succ_of_le hj) with hj' | hj'
      · exact ih j (Nat.lt_succ_iff.mp hj')
      · rw [hj']
        exact le_of_not_lt hlt

/-- `np.argmax` breaks ties by the lowest index: every strictly smaller index
carries a strictly smaller value. -/
theorem npArgmax_first (f : ℕ → ℚ) (n : ℕ) :
    ∀ j < npArgmax f n, f j < f (npArgmax f n) := by
  induction n with
  | zero =>
    intro j hj
    simp [npArgmax] at hj
  | succ n ih =>
    intro j hj
    simp only [npArgmax] at hj ⊢
    split_ifs with hlt
    · simp only [if_pos hlt] at hj
      exact lt_of_le_of_lt (le_npArgmax f n j (Nat.lt_succ_iff.mp hj)) hlt
    · simp only [if_neg hlt] at hj
      exact ih j hj

/-- C4: for every value array `V`, `Improve(V)` returns `(Pi, newV)` with,
writing `Q[s,a] = avgR[s,a] + gamma * sum over ns of K[s,ns,a]*V[ns]`:
`Pi[s]` is a valid action index that maximises `Q[s,·]` over `{0..M}`, every
strictly smaller action carries a strictly smaller Q-value (argmax ties are
broken by the lowest action index), and `newV[s] = Q[s, Pi[s]]`. -/
theorem improve_spec (M : ℕ) (gamma c c0 h p : ℚ) (pdem : List ℚ)
    (V : ℕ → ℚ) (s : ℕ) (_hs : s ≤ M) :
    (Improve M gamma c c0 h p pdem V).1 s ≤ M ∧
    (∀ a ≤ M, Qtable M gamma c c0 h p pdem V s a ≤
        Qtable M gamma c c0 h p pdem V s ((Improve M gamma c c0 h p pdem V).1 s)) ∧
    (∀ a < (Improve M gamma c c0 h p pdem V).1 s,
        Qtable M gamma c c0 h p pdem V s a <
        Qtable M gamma c c0 h p pdem V s ((Improve M gamma c c0 h p pdem V).1 s)) ∧
    (Improve M gamma c c0 h p pdem V).2 s =
        Qtable M gamma c c0 h p pdem V s ((Improve M gamma c c0 h p pdem V).1 s) :=
  ⟨npArgmax_le _ M, le_npArgmax _ M, npArgmax_first _ M, rfl⟩

/-- Witness for C4 at `M = 1`, zero parameters, `V = 0`, `s = 1`. -/
theorem improve_spec_witness :
    (Improve 1 0 0 0 0 0 [1, 0] (fun _ => 0)).1 1 ≤ 1 ∧
    (Improve 1 0 0 0 0 0 [1, 0] (fun _ => 0)).2 1 =
      Qtable 1 0 0 0 0 0 [1, 0] (fun _ => 0) 1
        ((Improve 1 0 0 0 0 0 [1, 0] (fun _ => 0)).1 1) :=
  ⟨(improve_spec 1 0 0 0 0 0 [1, 0] (fun _ => 0) 1 (by decide)).1,
   (improve_spec 1 0 0 0 0 0 [1, 0] (fun _ => 0) 1 (by decide)).2.2.2⟩

/-- Unfolding equation for `simuDemandAux` on a non-empty list. -/
theorem simuDemandAux_cons (u acc x : ℚ) (xs : List ℚ) :
    simuDemandAux u acc (x :: xs) =
      if u ≤ acc + x then some 0 else (simuDemandAux u (acc + x) xs).map (· + 1) :=
  rfl

/-- The cumulative scan of `simuDemandAux` succeeds as soon as the total mass
exceeds `u`, and returns the first index whose cumulative mass reaches `u`. -/
theorem simuDemandAux_spec (u : ℚ) :
    ∀ (l : List ℚ) (acc : ℚ), l ≠ [] → u < acc + l.sum →
      ∃ i, simuDemandAux u acc l = some i ∧ i < l.length ∧
        u ≤ acc + (l.take (i + 1)).sum ∧ ∀ j < i, acc + (l.take (j + 1)).sum < u := by
  intro l
  induction l with
  | nil => intro acc hne _; exact absurd rfl hne
  | cons x xs ih =>
    intro acc _ hsum
    by_cases hx : u ≤ acc + x
    · refine ⟨0, ?_, by simp, by simpa using hx, by omega⟩
      simp [simuDemandAux, hx]
    · push_neg at hx
      cases xs with
      | nil =>
        exfalso
        simp only [List.sum_cons, List.sum_nil, add_zero] at hsum
        linarith
      | cons y ys =>
        have hsum' : u < (acc + x) + (y :: ys).sum := by
          simp only [List.sum_cons] at hsum ⊢
          linarith
        obtain ⟨i, hi, hilen, hile, hfirst⟩ := ih (acc + x) (by simp) hsum'
        refine ⟨i + 1, ?_, ?_, ?_, ?_⟩
        · rw [simuDemandAux_cons, if_neg (not_le.mpr hx), hi, Option.map_some']
        · simpa using Nat.succ_lt_succ hilen
        · simpa [List.take_succ_cons, List.sum_cons, add_assoc] using hile
        · intro j hj
          cases j with
          | zero => simpa using hx
          | succ k =>
            have := hfirst k (by omega)
            simpa [List.take_succ_cons, List.sum_cons, add_assoc] using this

/-- C7: for every uniform draw `u ∈ [0,1)` and every pmf of length `M+1` with
non-negative entries summing to `1`, the demand sampler terminates with
`some i`, `i` is the smallest index whose cumulative mass reaches `u`, and
`i ∈ [0,M]` — the scan never runs past the end of the array. -/
theorem simuDemand_in_range (M : ℕ) (pdem : List ℚ) (u : ℚ)
    (_hu0 : 0 ≤ u) (hu1 : u < 1) (hlen : pdem.length = M + 1)
    (_hpos : ∀ x ∈ pdem, 0 ≤ x) (hsum : pdem.sum = 1) :
    ∃ i, SimuDemand u pdem = some i ∧ i ≤ M ∧
      u ≤ (pdem.take (i + 1)).sum ∧ ∀ j < i, (pdem.take (j + 1)).sum < u := by
  have hne : pdem ≠ [] := by
    intro hnil
    rw [hnil] at hlen
    simp at hlen
  have hlt : u < 0 + pdem.sum := by rw [hsum]; linarith
  obtain ⟨i, hi, hilen, hile, hfirst⟩ := simuDemandAux_spec u pdem 0 hne hlt
  refine ⟨i, hi, by omega, by simpa using hile, fun j hj => by simpa using hfirst j hj⟩

/-- Witness for C7 at `M = 1`, `pdem = [1, 0]`, `u = 0`. -/
theorem simuDemand_in_range_witness :
    ∃ i, SimuDemand 0 [1, 0] = some i ∧ i ≤ 1 ∧
      (0 : ℚ) ≤ (([1, 0] : List ℚ).take (i + 1)).sum ∧
      ∀ j < i, (([1, 0] : List ℚ).take (j + 1)).sum < 0 :=
  simuDemand_in_range 1 [1, 0] 0 le_rfl zero_lt_one rfl
    (by simp) (by simp)

/-- C9 counterexample: `reset` sets the internal step counter `curr_step`
to `-1`, not to `0`, refuting the claim at the concrete call
`reset(3)` on the environment `{state := 7, curr_step := 4}`. -/
theorem reset_counter_counterexample :
    (StoreEnv.reset { state := 7, curr_step := 4 } 3).curr_step = -1 ∧
      ¬ (StoreEnv.reset { state := 7, curr_step := 4 } 3).curr_step = 0 := by
  decide

/-- C9 (amended): after `reset(initial_stock)` the stored stock equals
`initial_stock` and the internal step counter `curr_step` equals `-1`
(zero completed steps: the counter is incremented at the start of each
`step` call); the Python method returns no value. -/
theorem reset_spec (env : StoreEnv) (InitialStock : ℤ) :
    (env.reset InitialStock).state = InitialStock ∧
      (env.reset InitialStock).curr_step = -1 :=
  ⟨rfl, rfl⟩

/-- `getD` at an index other than the one being overwritten. -/
theorem getD_set_ne (l : List ℚ) (i j : ℕ) (v : ℚ) (hij : i ≠ j) :
    (l.set i v).getD j 0 = l.getD j 0 := by
  rcases Nat.lt_or_ge j l.length with hj | hj
  · rw [List.getD_eq_getElem _ _ (by simpa using hj), List.getD_eq_getElem _ _ hj]
    exact List.getElem_set_of_ne hij v (by simpa using hj)
  · rw [List.getD_eq_default _ _ (by simpa using hj), List.getD_eq_default _ _ hj]

/-- `getD` at the index being overwritten, when it is inside the list. -/
theorem getD_set_self (l : List ℚ) (i : ℕ) (v : ℚ) (hi : i < l.length) :
    (l.set i v).getD i 0 = v := by
  rw [List.getD_eq_getElem _ _ (by simpa using hi)]
  exact List.getElem_set_self (by simpa using hi)

/-- Unfolding equation for one iteration of the trajectory loop. -/
theorem simTrajLoop_succ (M : ℤ) (c c0 h p : ℚ) (pdem : List ℚ) (us : ℕ → ℚ)
    (Pi : ℤ → ℤ) (t rem : ℕ) (S R : List ℚ) (env : StoreEnv) :
    simTrajLoop M c c0 h p pdem us Pi t (rem + 1) S R env =
      match env.step M c c0 h p pdem (Pi env.state) (us t) with
      | none => none
      | some (_, rew, _, env1) =>
        simTrajLoop M c c0 h p pdem us Pi (t + 1) rem
          (S.set t (env.state : ℚ)) (R.set t rew) env1 :=
  rfl

/-- The trajectory loop never changes the lengths of the two arrays. -/
theorem simTrajLoop_length (M : ℤ) (c c0 h p : ℚ) (pdem : List ℚ) (us : ℕ → ℚ)
    (Pi : ℤ → ℤ) :
    ∀ (rem t : ℕ) (S R : List ℚ) (env : StoreEnv) (S1 R1 : List ℚ),
      simTrajLoop M c c0 h p pdem us Pi t rem S R env = some (S1, R1) →
      S1.length = S.length ∧ R1.length = R.length := by
  intro rem
  induction rem with
  | zero =>
    intro t S R env S1 R1 hloop
    simp only [simTrajLoop, Option.some.injEq, Prod.mk.injEq] at hloop
    obtain ⟨h1, h2⟩ := hloop
    rw [← h1, ← h2]
    exact ⟨rfl, rfl⟩
  | succ rem ih =>
    intro t S R env S1 R1 hloop
    rw [simTrajLoop_succ] at hloop
    rcases hEnv : env.step M c c0 h p pdem (Pi env.state) (us t) with - | ⟨ns, rew, dn, env1⟩
    · rw [hEnv] at hloop
      simp at hloop
    · rw [hEnv] at hloop
      have := ih (t + 1) (S.set t (env.state : ℚ)) (R.set t rew) env1 S1 R1 hloop
      simpa using this

/-- Entries outside the window `[t, t+rem)` are untouched by the loop. -/
theorem simTrajLoop_preserve (M : ℤ) (c c0 h p : ℚ) (pdem : List ℚ) (us : ℕ → ℚ)
    (Pi : ℤ → ℤ) :
    ∀ (rem t : ℕ) (S R : List ℚ) (env : StoreEnv) (S1 R1 : List ℚ),
      simTrajLoop M c c0 h p pdem us Pi t rem S R env = some (S1, R1) →
      ∀ j, (j < t ∨ t + rem ≤ j) →
        S1.getD j 0 = S.getD j 0 ∧ R1.getD j 0 = R.getD j 0 := by
  intro rem
  induction rem with
  | zero =>
    intro t S R env S1 R1 hloop j hj
    simp only [simTrajLoop, Option.some.injEq, Prod.mk.injEq] at hloop
    obtain ⟨h1, h2⟩ := hloop
    rw [← h1, ← h2]
    exact ⟨rfl, rfl⟩
  | succ rem ih =>
    intro t S R env S1 R1 hloop j hj
    rw [simTrajLoop_succ] at hloop
    rcases hEnv : env.step M c c0 h p pdem (Pi env.state) (us t) with - | ⟨ns, rew, dn, env1⟩
    · rw [hEnv] at hloop
      simp at hloop
    · rw [hEnv] at hloop
      have hj1 : j < t + 1 ∨ (t + 1) + rem ≤ j := by omega
      have hji : t ≠ j := by omega
      have := ih (t + 1) (S.set t (env.state : ℚ)) (R.set t rew) env1 S1 R1 hloop j hj1
      rw [getD_set_ne S t j _ hji, getD_set_ne R t j _ hji] at this
      exact this

/-- If at least one iteration runs, position `t` of the state array receives
the state the loop starts from. -/
theorem simTrajLoop_start (M : ℤ) (c c0 h p : ℚ) (pdem : List ℚ) (us : ℕ → ℚ)
    (Pi : ℤ → ℤ) (rem t : ℕ) (S R : List ℚ) (env : StoreEnv) (S1 R1 : List ℚ)
    (hrem : 0 < rem) (ht : t < S.length)
    (hloop : simTrajLoop M c c0 h p pdem us Pi t rem S R env = some (S1, R1)) :
    S1.getD t 0 = (env.state : ℚ) := by
  cases rem with
  | zero => omega
  | succ rem =>
    rw [simTrajLoop_succ] at hloop
    rcases hEnv : env.step M c c0 h p pdem (Pi env.state) (us t) with - | ⟨ns, rew, dn, env1⟩
    · rw [hEnv] at hloop
      simp at hloop
    · rw [hEnv] at hloop
      have hpres := simTrajLoop_preserve M c c0 h p pdem us Pi rem (t + 1)
        (S.set t (env.state : ℚ)) (R.set t rew) env1 S1 R1 hloop t (Or.inl (by omega))
      rw [hpres.1, getD_set_self S t _ ht]

/-- C10: for every horizon `T ≥ 0`, policy `Pi` and initial state `s1`, a
completed `SimulateTrajectory(T, Pi, s1)` returns arrays `States` and
`Rewards` of length `T+1`, only indices `0..T-1` are ever written —
`States[0] = s1` whenever `T > 0`, and the final entries `States[T]` and
`Rewards[T]` keep their initial value `0`. -/
theorem simulateTrajectory_spec (M : ℤ) (c c0 h p : ℚ) (pdem : List ℚ)
    (us : ℕ → ℚ) (T : ℕ) (Pi : ℤ → ℤ) (s1 : ℤ) (S R : List ℚ)
    (hrun : SimulateTrajectory M c c0 h p pdem us T Pi s1 = some (S, R)) :
    S.length = T + 1 ∧ R.length = T + 1 ∧
    (0 < T → S.getD 0 0 = (s1 : ℚ)) ∧
    S.getD T 0 = 0 ∧ R.getD T 0 = 0 := by
  unfold SimulateTrajectory at hrun
  have hrepl : ∀ j : ℕ, j < T + 1 → (List.replicate (T + 1) (0 : ℚ)).getD j 0 = 0 := by
    intro j hj
    rw [List.getD_eq_getElem _ _ (by simpa using hj)]
    exact List.getElem_replicate 0 (by simpa using hj)
  have hlen := simTrajLoop_length M c c0 h p pdem us Pi T 0 _ _ _ S R hrun
  have hlast := simTrajLoop_preserve M c c0 h p pdem us Pi T 0 _ _ _ S R hrun T
    (Or.inr (by omega))
  refine ⟨by simpa using hlen.1, by simpa using hlen.2, ?_, ?_, ?_⟩
  · intro hT
    have := simTrajLoop_start M c c0 h p pdem us Pi T 0 _ _ _ S R hT (by simp) hrun
    simpa [StoreManagement.init] using this
  · rw [hlast.1]
    exact hrepl T (by omega)
  · rw [hlast.2]
    exact hrepl T (by omega)

/-- Witness for C10: a completed concrete run with `T = 1`. -/
theorem simulateTrajectory_spec_witness :
    ([(0 : ℚ), 0] : List ℚ).length = 1 + 1 ∧ ([(0 : ℚ), 0] : List ℚ).length = 1 + 1 ∧
    (0 < 1 → ([(0 : ℚ), 0] : List ℚ).getD 0 0 = ((0 : ℤ) : ℚ)) ∧
    ([(0 : ℚ), 0] : List ℚ).getD 1 0 = 0 ∧ ([(0 : ℚ), 0] : List ℚ).getD 1 0 = 0 :=
  simulateTrajectory_spec 0 0 0 0 0 [1] (fun _ => 0) 1 (fun _ => 0) 0 [0, 0] [0, 0]
    (by simp [SimulateTrajectory, simTrajLoop, StoreEnv.step, SimuDemand,
      simuDemandAux, StoreManagement.init, nextstate, nextreward])

/-- Entries read off a list of non-negative entries are non-negative. -/
theorem getD_nonneg (l : List ℚ) (hpos : ∀ x ∈ l, 0 ≤ x) (d : ℕ) :
    0 ≤ l.getD d 0 := by
  rcases Nat.lt_or_ge d l.length with hd | hd
  · rw [List.getD_eq_getElem _ _ hd]
    exact hpos _ (l.getElem_mem hd)
  · rw [List.getD_eq_default _ _ hd]

/-- Transition probabilities are non-negative when the pmf is. -/
theorem K_nonneg (M : ℕ) (pdem : List ℚ) (hpos : ∀ x ∈ pdem, 0 ≤ x)
    (s ns a : ℕ) : 0 ≤ K M pdem s ns a := by
  unfold K
  refine Finset.sum_nonneg fun d _ => ?_
  split_ifs
  · exact getD_nonneg pdem hpos d
  · exact le_rfl

/-- Two first-occurrence argmax values are within `B` of each other whenever
the two functions are pointwise within `B` on `{0..n}`. -/
theorem abs_argmax_diff_le (f g : ℕ → ℚ) (n : ℕ) (B : ℚ)
    (hfg : ∀ j ≤ n, |f j - g j| ≤ B) :
    |f (npArgmax f n) - g (npArgmax g n)| ≤ B := by
  have hf := hfg (npArgmax f n) (npArgmax_le f n)
  have hg := hfg (npArgmax g n) (npArgmax_le g n)
  rw [abs_le] at hf hg ⊢
  constructor
  · have h1 : g (npArgmax g n) ≤ f (npArgmax g n) + B := by linarith [hg.1]
    have h2 : f (npArgmax g n) ≤ f (npArgmax f n) :=
      le_npArgmax f n (npArgmax g n) (npArgmax_le g n)
    linarith
  · have h1 : f (npArgmax f n) ≤ g (npArgmax f n) + B := by linarith [hf.2]
    have h2 : g (npArgmax f n) ≤ g (npArgmax g n) :=
      le_npArgmax g n (npArgmax f n) (npArgmax_le f n)
    linarith

/-- The Q tables of two value arrays differ by at most `gamma * B` whenever
the value arrays differ by at most `B` on the state range. -/
theorem Qtable_diff_le (M : ℕ) (gamma c c0 h p : ℚ) (pdem : List ℚ)
    (hlen : pdem.length = M + 1) (hpos : ∀ x ∈ pdem, 0 ≤ x) (hsum : pdem.sum = 1)
    (hg0 : 0 ≤ gamma) (V1 V2 : ℕ → ℚ) (B : ℚ)
    (hB : ∀ ns ∈ Finset.range (M + 1), |V1 ns - V2 ns| ≤ B) (s a : ℕ) :
    |Qtable M gamma c c0 h p pdem V1 s a - Qtable M gamma c c0 h p pdem V2 s a|
      ≤ gamma * B := by
  have hdiff : Qtable M gamma c c0 h p pdem V1 s a - Qtable M gamma c c0 h p pdem V2 s a
      = gamma * ∑ ns ∈ Finset.range (M + 1), K M pdem s ns a * (V1 ns - V2 ns) := by
    unfold Qtable
    have hsub : (∑ ns ∈ Finset.range (M + 1), K M pdem s ns a * V1 ns)
        - (∑ ns ∈ Finset.range (M + 1), K M pdem s ns a * V2 ns)
        = ∑ ns ∈ Finset.range (M + 1), K M pdem s ns a * (V1 ns - V2 ns) := by
      rw [← Finset.sum_sub_distrib]
      exact Finset.sum_congr rfl fun ns _ => (mul_sub _ _ _).symm
    linear_combination gamma * hsub
  rw [hdiff, abs_mul, abs_of_nonneg hg0]
  refine mul_le_mul_of_nonneg_left ?_ hg0
  calc |∑ ns ∈ Finset.range (M + 1), K M pdem s ns a * (V1 ns - V2 ns)|
      ≤ ∑ ns ∈ Finset.range (M + 1), |K M pdem s ns a * (V1 ns - V2 ns)| :=
        Finset.abs_sum_le_sum_abs _ _
    _ ≤ ∑ ns ∈ Finset.range (M + 1), K M pdem s ns a * B := by
        refine Finset.sum_le_sum fun ns hns => ?_
        rw [abs_mul, abs_of_nonneg (K_nonneg M pdem hpos s ns a)]
        exact mul_le_mul_of_nonneg_left (hB ns hns) (K_nonneg M pdem hpos s ns a)
    _ = (∑ ns ∈ Finset.range (M + 1), K M pdem s ns a) * B := by
        rw [Finset.sum_mul]
    _ = B := by rw [K_row_sum M pdem hlen hsum s a, one_mul]

/-- C5: for `gamma ∈ [0,1)`, the value update performed by `Improve` is a
gamma-contraction in the sup norm over states `{0..M}`: whenever `V1` and
`V2` are pointwise within `B`, the updated values are pointwise within
`gamma * B`; consequently the per-iteration change of the `ValueIteration`
loop, `|V - newV|` measured uniformly over the state range, is
non-increasing from one iteration to the next. -/
theorem improve_contraction (M : ℕ) (gamma c c0 h p : ℚ) (pdem : List ℚ)
    (hlen : pdem.length = M + 1) (hpos : ∀ x ∈ pdem, 0 ≤ x) (hsum : pdem.sum = 1)
    (hg0 : 0 ≤ gamma) (hg1 : gamma < 1) :
    (∀ (V1 V2 : ℕ → ℚ) (B : ℚ),
      (∀ ns ∈ Finset.range (M + 1), |V1 ns - V2 ns| ≤ B) →
      ∀ s ∈ Finset.range (M + 1),
        |(Improve M gamma c c0 h p pdem V1).2 s -
          (Improve M gamma c c0 h p pdem V2).2 s| ≤ gamma * B) ∧
    (∀ (V : ℕ → ℚ) (C : ℚ),
      (∀ s ∈ Finset.range (M + 1),
        |V s - (Improve M gamma c c0 h p pdem V).2 s| ≤ C) →
      ∀ s ∈ Finset.range (M + 1),
        |(Improve M gamma c c0 h p pdem V).2 s -
          (Improve M gamma c c0 h p pdem
            ((Improve M gamma c c0 h p pdem V).2)).2 s| ≤ C) := by
  have key : ∀ (V1 V2 : ℕ → ℚ) (B : ℚ),
      (∀ ns ∈ Finset.range (M + 1), |V1 ns - V2 ns| ≤ B) →
      ∀ s ∈ Finset.range (M + 1),
        |(Improve M gamma c c0 h p pdem V1).2 s -
          (Improve M gamma c c0 h p pdem V2).2 s| ≤ gamma * B := by
    intro V1 V2 B hB s _
    exact abs_argmax_diff_le
      (fun a => Qtable M gamma c c0 h p pdem V1 s a)
      (fun a => Qtable M gamma c c0 h p pdem V2 s a) M (gamma * B)
      (fun j _ => Qtable_diff_le M gamma c c0 h p pdem hlen hpos hsum hg0
        V1 V2 B hB s j)
  refine ⟨key, ?_⟩
  intro V C hC s hs
  have hC0 : 0 ≤ C := le_trans (abs_nonneg _) (hC 0 (by simp))
  have := key V ((Improve M gamma c c0 h p pdem V).2) C hC s hs
  calc |(Improve M gamma c c0 h p pdem V).2 s -
        (Improve M gamma c c0 h p pdem ((Improve M gamma c c0 h p pdem V).2)).2 s|
      ≤ gamma * C := this
    _ ≤ 1 * C := mul_le_mul_of_nonneg_right (le_of_lt hg1) hC0
    _ = C := one_mul C

/-- Witness for C5 at `M = 0`, `gamma = 0`, zero costs, `pdem = [1]`,
`V1 = V2 = 0`, `B = C = 0`. -/
theorem improve_contraction_witness :
    |(Improve 0 0 0 0 0 0 [1] (fun _ => 0)).2 0 -
      (Improve 0 0 0 0 0 0 [1] (fun _ => 0)).2 0| ≤ 0 * 0 ∧
    |(Improve 0 0 0 0 0 0 [1] (fun _ => 0)).2 0 -
      (Improve 0 0 0 0 0 0 [1]
        ((Improve 0 0 0 0 0 0 [1] (fun _ => 0)).2)).2 0| ≤ 0 :=
  ⟨(improve_contraction 0 0 0 0 0 0 [1] rfl (by simp) (by simp)
      le_rfl zero_lt_one).1 (fun _ => 0) (fun _ => 0) 0 (by simp) 0 (by simp),
   (improve_contraction 0 0 0 0 0 0 [1] rfl (by simp) (by simp)
      le_rfl zero_lt_one).2 (fun _ => 0) 0
      (by
        intro s hs
        simp [Improve, Qtable, avgR, nextreward, npArgmax])
      0 (by simp)⟩

/-- A successful environment step advances the step counter by one. -/
theorem step_curr_step (M : ℤ) (c c0 h p : ℚ) (pdem : List ℚ) (env : StoreEnv)
    (a : ℤ) (u : ℚ) (ns : ℤ) (rew : ℚ) (dn : Bool) (env1 : StoreEnv)
    (hstep : env.step M c c0 h p pdem a u = some (ns, rew, dn, env1)) :
    env1.curr_step = env.curr_step + 1 := by
  unfold StoreEnv.step at hstep
  cases hSD : SimuDemand u pdem with
  | none => rw [hSD] at hstep; simp at hstep
  | some d =>
    rw [hSD] at hstep
    simp only [Option.map_some', Option.some.injEq, Prod.mk.injEq] at hstep
    obtain ⟨-, -, -, h4⟩ := hstep
    rw [← h4]

/-- One inner Q-learning iteration advances the environment step counter and
the stream position by one. -/
theorem qlIter_counters (P : QLParams) (st st1 : QLState)
    (hit : qlIter P st = some st1) :
    st1.env.curr_step = st.env.curr_step + 1 ∧ st1.t = st.t + 1 := by
  simp only [qlIter] at hit
  cases hstep : st.env.step P.M P.c P.c0 P.h P.p P.pdem
      (if (3 / 10 : ℚ) < P.randE st.t
        then ((npArgmax (fun a => st.Q st.env.state a) P.M : ℕ) : ℤ)
        else ((P.randA st.t : ℕ) : ℤ)) (P.randU st.t) with
  | none => rw [hstep] at hit; simp at hit
  | some r =>
    obtain ⟨ns, rew, dn, env1⟩ := r
    rw [hstep] at hit
    simp only [Option.some.injEq] at hit
    have hcurr := step_curr_step _ _ _ _ _ _ _ _ _ _ _ _ _ hstep
    rw [← hit]
    exact ⟨hcurr, rfl⟩

/-- Running `n` inner iterations advances the counters by `n`. -/
theorem qlRun_counters (P : QLParams) :
    ∀ (n : ℕ) (st st1 : QLState), qlRun P n st = some st1 →
      st1.env.curr_step = st.env.curr_step + n ∧ st1.t = st.t + n := by
  intro n
  induction n with
  | zero =>
    intro st st1 hrun
    simp only [qlRun, Option.some.injEq] at hrun
    rw [← hrun]
    simp
  | succ n ih =>
    intro st st1 hrun
    rw [show qlRun P (n + 1) st =
        (match qlIter P st with
         | none => none
         | some st2 => qlRun P n st2) from rfl] at hrun
    cases hit : qlIter P st with
    | none => rw [hit] at hrun; simp at hrun
    | some st2 =>
      rw [hit] at hrun
      have h1 := qlIter_counters P st st2 hit
      have h2 := ih st2 st1 hrun
      constructor
      · rw [h2.1, h1.1]; push_cast; ring
      · rw [h2.2, h1.2]; ring

/-- Splitting a run of `m + n` inner iterations at the `m`-th. -/
theorem qlRun_add (P : QLParams) :
    ∀ (m n : ℕ) (st : QLState),
      qlRun P (m + n) st = (qlRun P m st).bind (fun st1 => qlRun P n st1) := by
  intro m
  induction m with
  | zero => intro n st; simp [qlRun]
  | succ m ih =>
    intro n st
    rw [Nat.succ_add]
    rw [show qlRun P ((m + n) + 1) st =
        (match qlIter P st with
         | none => none
         | some st2 => qlRun P (m + n) st2) from rfl]
    rw [show qlRun P (m + 1) st =
        (match qlIter P st with
         | none => none
         | some st2 => qlRun P m st2) from rfl]
    cases hit : qlIter P st with
    | none => simp
    | some st2 => simp [ih n st2]

/-- Unfolding equation for one landmark segment of the outer loop. -/
theorem qlSegs_cons (P : QLParams) (lo hi : ℕ) (rest : List (ℕ × ℕ))
    (st : QLState) :
    qlSegs P ((lo, hi) :: rest) st =
      (qlRun P (hi - (lo + 1)) st).bind fun st1 =>
        (qlSegs P rest st1).map fun rsf =>
          ((hi, st1.env.curr_step, greedyPolicy P.M st1.Q) :: rsf.1, rsf.2) :=
  rfl

/-- The checkpoint / step-counter components of the reports follow
`reportSpec`: each segment contributes `hi - lo - 1` update steps. -/
theorem qlSegs_counts (P : QLParams) :
    ∀ (pairs : List (ℕ × ℕ)) (st : QLState) (rs : List (ℕ × ℤ × (ℕ → ℕ)))
      (stf : QLState), qlSegs P pairs st = some (rs, stf) →
      rs.map (fun r => (r.1, r.2.1)) = reportSpec pairs st.env.curr_step := by
  intro pairs
  induction pairs with
  | nil =>
    intro st rs stf hseg
    simp only [qlSegs, Option.some.injEq, Prod.mk.injEq] at hseg
    rw [← hseg.1]
    rfl
  | cons pr rest ih =>
    obtain ⟨lo, hi⟩ := pr
    intro st rs stf hseg
    rw [qlSegs_cons] at hseg
    cases hrun : qlRun P (hi - (lo + 1)) st with
    | none => rw [hrun] at hseg; simp at hseg
    | some st1 =>
      rw [hrun, Option.some_bind] at hseg
      cases hrest : qlSegs P rest st1 with
      | none => rw [hrest] at hseg; simp at hseg
      | some pr1 =>
        obtain ⟨rs1, stf1⟩ := pr1
        rw [hrest] at hseg
        simp only [Option.map_some', Option.some.injEq, Prod.mk.injEq] at hseg
        obtain ⟨hrs, -⟩ := hseg
        rw [← hrs]
        simp only [List.map_cons, reportSpec]
        have hcurr := (qlRun_counters P (hi - (lo + 1)) st st1 hrun).1
        rw [ih st1 rs1 stf1 hrest, hcurr]

/-- Cumulative numbers of executed Q-update steps at each report, starting
from a count of `n0` already executed. -/
def cumUpdates : List (ℕ × ℕ) → ℕ → List ℕ
  | [], _ => []
  | (lo, hi) :: rest, n0 =>
    (n0 + (hi - (lo + 1))) :: cumUpdates rest (n0 + (hi - (lo + 1)))

/-- Each reported policy is the greedy policy of the Q table reached after
exactly the cumulative number of update steps of its segment. -/
theorem qlSegs_policies (P : QLParams) :
    ∀ (pairs : List (ℕ × ℕ)) (st0 st : QLState) (n0 : ℕ)
      (rs : List (ℕ × ℤ × (ℕ → ℕ))) (stf : QLState),
      qlRun P n0 st0 = some st →
      qlSegs P pairs st = some (rs, stf) →
      some (rs.map (fun r => r.2.2)) =
        (cumUpdates pairs n0).mapM
          (fun n => (qlRun P n st0).map (fun st1 => greedyPolicy P.M st1.Q)) := by
  intro pairs
  induction pairs with
  | nil =>
    intro st0 st n0 rs stf h0 hseg
    simp only [qlSegs, Option.some.injEq, Prod.mk.injEq] at hseg
    rw [← hseg.1]
    rfl
  | cons pr rest ih =>
    obtain ⟨lo, hi⟩ := pr
    intro st0 st n0 rs stf h0 hseg
    rw [qlSegs_cons] at hseg
    cases hrun : qlRun P (hi - (lo + 1)) st with
    | none => rw [hrun] at hseg; simp at hseg
    | some st1 =>
      rw [hrun, Option.some_bind] at hseg
      cases hrest : qlSegs P rest st1 with
      | none => rw [hrest] at hseg; simp at hseg
      | some pr1 =>
        obtain ⟨rs1, stf1⟩ := pr1
        rw [hrest] at hseg
        simp only [Option.map_some', Option.some.injEq, Prod.mk.injEq] at hseg
        obtain ⟨hrs, -⟩ := hseg
        have h0' : qlRun P (n0 + (hi - (lo + 1))) st0 = some st1 := by
          rw [qlRun_add P n0 (hi - (lo + 1)) st0, h0, Option.some_bind, hrun]
        have htail := ih st0 st1 (n0 + (hi - (lo + 1))) rs1 stf1 h0' hrest
        rw [← hrs]
        simp only [cumUpdates, List.map_cons, List.mapM_cons, h0', Option.map_some']
        rw [← htail]
        rfl

/-- C8 counterexample: with checkpoint list `[0, 3]` (and degenerate
parameters `M = 0`, zero costs, pmf `[1]`, zero random streams), `QLearning`
emits its only report at checkpoint `3` when the environment step counter is
`1`, i.e. after `2` Q-update steps — not the `3` update steps the claim
requires (which would put the counter at `2`); the checkpoint `0` heading
the list is never reported at all. -/
theorem qlearning_offbyone_counterexample :
    ((QLearning
        { M := 0, gamma := 0, c := 0, c0 := 0, h := 0, p := 0, pdem := [1],
          randA := fun _ => 0, randE := fun _ => 0, randU := fun _ => 0,
          invSqrtP := fun _ => 0 }
        (fun _ _ => 0) 0 [0, 3]).map fun pr => pr.1.map fun r => (r.1, r.2.1))
      = some [(3, 1)] ∧
    some [((3 : ℕ), (1 : ℤ))] ≠ some [((3 : ℕ), (2 : ℤ))] := by
  constructor
  · simp [QLearning, qlSegs, qlRun, qlIter, StoreEnv.step, SimuDemand,
      simuDemandAux, StoreManagement.init, greedyPolicy, npArgmax, npMax,
      fupd2, nextstate, nextreward]
  · decide

/-- C8 (amended): for every checkpoint list, `QLearning` reports once per
consecutive landmark pair `(L[k], L[k+1])` — so never for the first
checkpoint `L[0]` — and at the `k`-th report the environment step counter
equals `-1` plus the cumulative count `sum of (L[j+1] - L[j] - 1)` of
executed Q-update steps (one fewer per segment than the checkpoint
spacing), while the reported policy is the per-state argmax of the Q table
reached after exactly that cumulative number of Q-update steps. -/
theorem qlearning_checkpoints (P : QLParams) (Q0 : ℤ → ℤ → ℚ) (s0 : ℤ)
    (Landmarks : List ℕ) :
    ((QLearning P Q0 s0 Landmarks).map fun pr => pr.1.map fun r => (r.1, r.2.1))
      = ((QLearning P Q0 s0 Landmarks).map fun _ =>
          reportSpec (Landmarks.zip Landmarks.tail) (-1)) ∧
    ((QLearning P Q0 s0 Landmarks).map fun pr => some (pr.1.map fun r => r.2.2))
      = ((QLearning P Q0 s0 Landmarks).map fun _ =>
          (cumUpdates (Landmarks.zip Landmarks.tail) 0).mapM fun n =>
            (qlRun P n { Q := Q0, N := fun _ _ => 0,
                         env := StoreManagement.init s0, t := 0 }).map
              fun st1 => greedyPolicy P.M st1.Q) := by
  constructor
  · cases hQL : QLearning P Q0 s0 Landmarks with
    | none => rfl
    | some pr =>
      obtain ⟨rs, stf⟩ := pr
      unfold QLearning at hQL
      simp only [Option.map_some']
      rw [qlSegs_counts P (Landmarks.zip Landmarks.tail) _ rs stf hQL]
      rfl
  · cases hQL : QLearning P Q0 s0 Landmarks with
    | none => rfl
    | some pr =>
      obtain ⟨rs, stf⟩ := pr
      unfold QLearning at hQL
      simp only [Option.map_some']
      exact congrArg some
        (qlSegs_policies P (Landmarks.zip Landmarks.tail) _ _ 0 rs stf rfl hQL)

end RetailStore
